import Mathlib

/-!
Verification of the LaundryQueue scheduling core (`src/Machine.ts`, classes
`TimeSlot` and `Schedule`).

Modelling conventions:
* A JavaScript `Date` is identified by its `getTime()` value in milliseconds,
  modelled as `Int`; an *invalid* date (whose `getTime()` is `NaN`) is
  modelled by `none` in `Option Int`, so a possibly-invalid `Date` is
  `JSDate := Option Int`.  The `TimeSlot` constructor is the only place that
  inspects validity.
* A constructed `TimeSlot` object carries, besides its two (valid) instants,
  an identity tag `oid : Nat` standing for the JavaScript object reference:
  two distinct `new TimeSlot(...)` constructions yield distinct references,
  hence distinct tags, even when the endpoints coincide.  JavaScript `===`
  on objects (used by `Array.prototype.indexOf`) is structural equality of
  the model including `oid`; the class method `TimeSlot.equals` compares the
  endpoints only, exactly as the source does.
* Exceptions thrown by the `TimeSlot` constructor are modelled with
  `Except TimeSlotError`; code that does not catch them propagates the
  `Except.error`.
* Each `Schedule` method becomes a function from the `timeSlots` sequence
  (a `List TimeSlot`) and the sampled wall clock `now` to a pair of the
  returned value and the `timeSlots` sequence after the call, making the
  mutation (or its absence) explicit.
-/

namespace LaundryQueue

/-- A JavaScript `Date`: `some t` when valid with `getTime() = t`
milliseconds since the epoch, `none` when invalid (`getTime()` is `NaN`). -/
abbrev JSDate := Option Int

/-- The three and only failure kinds of the `TimeSlot` constructor
(`src/Machine.ts:147-171`): an invalid timestamp, `start >= end`, and a
duration over 24 hours. -/
inductive TimeSlotError where
  | invalidTime : TimeSlotError
  | ordering : TimeSlotError
  | duration : TimeSlotError
deriving DecidableEq, Repr

/-- The 24-hour duration cap in milliseconds: `1000 * 60 * 60 * 24`. -/
def msPerDay : Int := 1000 * 60 * 60 * 24

/-- A constructed `TimeSlot` object: valid `start` and `end` instants plus
the object-identity tag `oid` (the JavaScript reference). -/
structure TimeSlot where
  start : Int
  endTime : Int
  oid : Nat
deriving DecidableEq, Repr

/-- The `TimeSlot` constructor (`src/Machine.ts:147-171`): checks, in order,
validity of `start`, validity of `end`, `start < end`, and the 24-hour
duration cap, throwing on the first failed check. -/
def mkTimeSlot (startD endD : JSDate) (oid : Nat) : Except TimeSlotError TimeSlot :=
  match startD with
  | none => .error .invalidTime
  | some s =>
    match endD with
    | none => .error .invalidTime
    | some e =>
      if s ≥ e then .error .ordering
      else if e - s > msPerDay then .error .duration
      else .ok ⟨s, e, oid⟩

namespace TimeSlot

/-- Method `TimeSlot.equals` (`src/Machine.ts:179-181`): both endpoints match
exactly; object identity plays no part. -/
def equals (a b : TimeSlot) : Bool :=
  a.start == b.start && a.endTime == b.endTime

/-- Method `TimeSlot.notEquals` (`src/Machine.ts:189-191`). -/
def notEquals (a b : TimeSlot) : Bool :=
  a.start != b.start || a.endTime != b.endTime

/-- Method `TimeSlot.lessThan` (`src/Machine.ts:198-200`): compares `start` only. -/
def lessThan (a b : TimeSlot) : Bool :=
  a.start < b.start

/-- Method `TimeSlot.greaterThan` (`src/Machine.ts:206-208`). -/
def greaterThan (a b : TimeSlot) : Bool :=
  a.start > b.start

/-- Method `TimeSlot.lessThanOrEqual` (`src/Machine.ts:216-218`). -/
def lessThanOrEqual (a b : TimeSlot) : Bool :=
  a.start ≤ b.start

/-- Method `TimeSlot.greaterThanOrEqual` (`src/Machine.ts:226-228`). -/
def greaterThanOrEqual (a b : TimeSlot) : Bool :=
  a.start ≥ b.start

/-- Method `TimeSlot.contains` (`src/Machine.ts:237-239`): half-open membership,
`start <= date < end`. -/
def contains (a : TimeSlot) (date : Int) : Bool :=
  date ≥ a.start && date < a.endTime

/-- Method `TimeSlot.overlaps` (`src/Machine.ts:246-248`):
`this.start < other.end && this.end > other.start`. -/
def overlaps (a b : TimeSlot) : Bool :=
  a.start < b.endTime && a.endTime > b.start

end TimeSlot

namespace Schedule

/-- The overlap test inlined in `Schedule.addTimeSlot` (`src/Machine.ts:277`):
`timeSlot.start < slot.end && timeSlot.end > slot.start`. -/
def overlapsAny (l : List TimeSlot) (timeSlot : TimeSlot) : Bool :=
  l.any fun slot => timeSlot.start < slot.endTime && timeSlot.endTime > slot.start

/-- The insertion loop of `Schedule.addTimeSlot` (`src/Machine.ts:283-292`):
splice `timeSlot` in before the first element it is `lessThan`
(strictly smaller `start`), else push it at the end. -/
def insertLoop : List TimeSlot → TimeSlot → List TimeSlot
  | [], timeSlot => [timeSlot]
  | slot :: rest, timeSlot =>
    if timeSlot.lessThan slot then timeSlot :: slot :: rest
    else slot :: insertLoop rest timeSlot

/-- Method `Schedule.addTimeSlot` (`src/Machine.ts:269-293`): reject a fully elapsed
slot (`end < now`), reject on overlap with any existing slot, otherwise
insert in start order and return `true`. -/
def addTimeSlot (l : List TimeSlot) (timeSlot : TimeSlot) (now : Int) :
    Bool × List TimeSlot :=
  if timeSlot.endTime < now then (false, l)
  else if overlapsAny l timeSlot then (false, l)
  else (true, insertLoop l timeSlot)

/-- Method `Schedule.removeTimeSlot` (`src/Machine.ts:299-306`):
`indexOf` — the first index whose element is `===` the argument, i.e.
the same object reference — then `splice(index, 1)`; `(false, l)` when
`indexOf` returns `-1`. -/
def removeTimeSlot (l : List TimeSlot) (timeSlot : TimeSlot) :
    Bool × List TimeSlot :=
  match l.findIdx? (fun slot => slot == timeSlot) with
  | none => (false, l)
  | some index => (true, l.eraseIdx index)

/-- Method `Schedule.isFree` (`src/Machine.ts:312-320`): true iff no existing slot
`overlaps` the argument; reads the sequence only. -/
def isFree (l : List TimeSlot) (timeSlot : TimeSlot) : Bool × List TimeSlot :=
  (!(l.any fun slot => slot.overlaps timeSlot), l)

/-- Method `Schedule.nextBusyTimeSlot` (`src/Machine.ts:336-343`): the first slot
whose `start` is strictly after `now`, else `null`. -/
def nextBusyTimeSlot (l : List TimeSlot) (now : Int) :
    Option TimeSlot × List TimeSlot :=
  (l.find? (fun slot => slot.start > now), l)

/-- The scan of `Schedule.nextFreeTimeSlot` (`src/Machine.ts:351-361`),
with `prev` the element at the previous index (`none` at index `0`):
on the first slot starting strictly after `now`, construct the synthetic
`TimeSlot` from `now` (at index 0) or from the previous slot's `end`,
up to that slot's `start`; a constructor exception propagates. -/
def nextFreeLoop (now : Int) (fresh : Nat) :
    Option TimeSlot → List TimeSlot → Except TimeSlotError (Option TimeSlot)
  | _, [] => .ok none
  | prev, timeSlot :: rest =>
    if timeSlot.start > now then
      match prev with
      | none => (mkTimeSlot (some now) (some timeSlot.start) fresh).map some
      | some p => (mkTimeSlot (some p.endTime) (some timeSlot.start) fresh).map some
    else nextFreeLoop now fresh (some timeSlot) rest

/-- Method `Schedule.nextFreeTimeSlot` (`src/Machine.ts:348-363`); `fresh` is the
identity tag of the newly constructed synthetic slot. -/
def nextFreeTimeSlot (l : List TimeSlot) (now : Int) (fresh : Nat) :
    Except TimeSlotError (Option TimeSlot) × List TimeSlot :=
  (nextFreeLoop now fresh none l, l)

/-- Method `Schedule.isBusy` (`src/Machine.ts:369-377`): some slot `contains` now. -/
def isBusy (l : List TimeSlot) (now : Int) : Bool × List TimeSlot :=
  (l.any fun timeSlot => timeSlot.contains now, l)

end Schedule

/-- Well-formedness guaranteed by the `TimeSlot` constructor: a positive
extent. -/
def WF (t : TimeSlot) : Prop := t.start < t.endTime

/-- One exposed mutation of a schedule: an `addTimeSlot` call (with the
wall-clock instant it samples) or a `removeTimeSlot` call. -/
inductive Op where
  | add (timeSlot : TimeSlot) (now : Int) : Op
  | remove (timeSlot : TimeSlot) : Op

/-- The effect of one exposed mutation on the `timeSlots` sequence. -/
def applyOp (l : List TimeSlot) : Op → List TimeSlot
  | .add timeSlot now => (Schedule.addTimeSlot l timeSlot now).2
  | .remove timeSlot => (Schedule.removeTimeSlot l timeSlot).2

/-- The `timeSlots` sequence after a sequence of exposed mutations starting
from the empty schedule (`src/Machine.ts:261-263`). -/
def runOps (ops : List Op) : List TimeSlot := ops.foldl applyOp []

/-- Every slot fed to an operation is constructor-validated, hence `WF`. -/
def OpWF : Op → Prop
  | .add timeSlot _ => WF timeSlot
  | .remove _ => True

/-- The schedule invariant: strictly ascending by `start`, and no two
elements overlap. -/
def SortedNonOverlapping (l : List TimeSlot) : Prop :=
  l.Pairwise (fun a b => a.start < b.start) ∧
  l.Pairwise (fun a b => a.overlaps b = false)

/- ### Helper lemmas -/

lemma overlaps_eq_false_iff (a b : TimeSlot) :
    a.overlaps b = false ↔ ¬(a.start < b.endTime ∧ a.endTime > b.start) := by
  simp [TimeSlot.overlaps]

lemma nextFreeLoop_eq_none (now : Int) (fresh : Nat) (prev : Option TimeSlot)
    (l : List TimeSlot) (h : ∀ u ∈ l, ¬ u.start > now) :
    Schedule.nextFreeLoop now fresh prev l = .ok none := by
  induction l generalizing prev with
  | nil => rfl
  | cons t rest ih =>
    have ht : ¬ t.start > now := h t (List.mem_cons_self t rest)
    simp only [Schedule.nextFreeLoop, if_neg ht]
    exact ih (some t) (fun u hu => h u (List.mem_cons_of_mem t hu))

lemma overlapsAny_eq_false_iff (l : List TimeSlot) (s : TimeSlot) :
    Schedule.overlapsAny l s = false ↔
      ∀ u ∈ l, ¬(s.start < u.endTime ∧ s.endTime > u.start) := by
  simp [Schedule.overlapsAny, List.any_eq_false]

lemma insertLoop_eq_takeWhile_dropWhile (l : List TimeSlot) (s : TimeSlot) :
    Schedule.insertLoop l s =
      l.takeWhile (fun u => !(s.lessThan u)) ++
        s :: l.dropWhile (fun u => !(s.lessThan u)) := by
  induction l with
  | nil => rfl
  | cons u rest ih =>
    by_cases h : s.lessThan u
    · simp [Schedule.insertLoop, h, List.takeWhile_cons, List.dropWhile_cons]
    · simp [Schedule.insertLoop, h, List.takeWhile_cons, List.dropWhile_cons, ih]

lemma findIdx?_insertLoop (l : List TimeSlot) (s : TimeSlot) (hmem : s ∉ l) :
    ∃ j, List.findIdx? (fun slot => slot == s) (Schedule.insertLoop l s) = some j ∧
      (Schedule.insertLoop l s).eraseIdx j = l := by
  induction l with
  | nil =>
    refine ⟨0, ?_, rfl⟩
    simp [Schedule.insertLoop, List.findIdx?_cons]
  | cons u rest ih =>
    have hus : (u == s) = false := by
      simp only [beq_eq_false_iff_ne, ne_eq]
      intro h
      exact hmem (h ▸ List.mem_cons_self u rest)
    by_cases h : s.lessThan u
    · refine ⟨0, ?_, ?_⟩
      · simp [Schedule.insertLoop, h, List.findIdx?_cons]
      · simp [Schedule.insertLoop, h]
    · obtain ⟨j, hj1, hj2⟩ := ih fun hm => hmem (List.mem_cons_of_mem u hm)
      have hins : Schedule.insertLoop (u :: rest) s = u :: Schedule.insertLoop rest s := by
        simp [Schedule.insertLoop, h]
      refine ⟨j + 1, ?_, ?_⟩
      · rw [hins, List.findIdx?_cons, if_neg (by simp [hus]), List.findIdx?_succ, hj1]
        rfl
      · rw [hins, List.eraseIdx_cons_succ, hj2]

/- ### C1 -/

/-- C1: the claim says `removeTimeSlot` removes per `TimeSlot.equals`
(value equality of endpoints), so an independently constructed slot with
the same endpoints suffices for removal.  The code instead uses
`Array.indexOf`, whose `===` is reference identity: here object #1 is
value-equal (per `equals`) to the stored object #0, yet removal returns
`false` and leaves the sequence unmodified, contradicting the claim and
the removal example in the code's own documentation
(`src/Machine.ts:54-79`). -/
theorem removeTimeSlot_ignores_value_equality :
    Schedule.removeTimeSlot [⟨0, 3600000, 0⟩] ⟨0, 3600000, 1⟩ =
      (false, [⟨0, 3600000, 0⟩]) ∧
    TimeSlot.equals ⟨0, 3600000, 1⟩ ⟨0, 3600000, 0⟩ = true := by
  constructor
  · rfl
  · rfl

/- ### C6 -/

/-- C6: when no slot starts strictly after the sampled instant — the empty
schedule and the schedule whose only slot is already in progress included —
`nextFreeTimeSlot` returns none (no exception, no slot), even though the
resource becomes free once an in-progress slot ends. -/
theorem nextFreeTimeSlot_none_of_no_future_start (l : List TimeSlot)
    (now : Int) (fresh : Nat) (h : ∀ u ∈ l, ¬ u.start > now) :
    (Schedule.nextFreeTimeSlot l now fresh).1 = .ok none :=
  nextFreeLoop_eq_none now fresh none l h

/-- A schedule whose single slot is in progress at `now = 5` (it spans
`[0, 10)`) reports no next free time slot. -/
theorem nextFreeTimeSlot_none_of_no_future_start_witness :
    (∀ u ∈ [(⟨0, 10, 0⟩ : TimeSlot)], ¬ u.start > (5 : Int)) ∧
    (Schedule.nextFreeTimeSlot [⟨0, 10, 0⟩] 5 2).1 = .ok none :=
  ⟨by decide, nextFreeTimeSlot_none_of_no_future_start [⟨0, 10, 0⟩] 5 2 (by decide)⟩

/- ### C7 -/

/-- C7: the constructor fails with `InvalidTimeError` on an invalid
timestamp, with `OrderingError` when `start >= end` (so in particular when
they are equal), with `DurationError` when `end - start` strictly exceeds
24 hours; at exactly 24 hours — and any shorter positive extent — it
succeeds with the given endpoints. -/
theorem mkTimeSlot_spec (s e : Int) (oid : Nat) :
    (∀ ed : JSDate, mkTimeSlot none ed oid = .error .invalidTime) ∧
    mkTimeSlot (some s) none oid = .error .invalidTime ∧
    (s ≥ e → mkTimeSlot (some s) (some e) oid = .error .ordering) ∧
    (e - s > msPerDay → mkTimeSlot (some s) (some e) oid = .error .duration) ∧
    (s < e → e - s ≤ msPerDay → mkTimeSlot (some s) (some e) oid = .ok ⟨s, e, oid⟩) := by
  refine ⟨fun ed => rfl, rfl, ?_, ?_, ?_⟩
  · intro h
    simp only [mkTimeSlot, if_pos h]
  · intro h
    have h1 : ¬ s ≥ e := by
      simp only [msPerDay] at h
      omega
    simp only [mkTimeSlot, if_neg h1, if_pos h]
  · intro h1 h2
    have h1' : ¬ s ≥ e := by omega
    have h2' : ¬ e - s > msPerDay := by omega
    simp only [mkTimeSlot, if_neg h1', if_neg h2']

/-- A slot of exactly 24 hours is accepted with the given endpoints. -/
theorem mkTimeSlot_spec_witness :
    mkTimeSlot (some 0) (some msPerDay) 3 = .ok ⟨0, msPerDay, 3⟩ :=
  (mkTimeSlot_spec 0 msPerDay 3).2.2.2.2
    (by simp [msPerDay]) (by simp)

/- ### C9 -/

/-- C9: a candidate sharing only a boundary instant with a stored slot
(`s.start = e.endTime` or `s.endTime = e.start`) does not count as
overlapping it — the admission test is strict in both comparisons — so an
otherwise admissible back-to-back slot is admitted. -/
theorem addTimeSlot_admits_adjacent (l : List TimeSlot) (e s : TimeSlot)
    (now : Int) (he : e ∈ l)
    (hadj : s.start = e.endTime ∨ s.endTime = e.start)
    (hnow : ¬ s.endTime < now)
    (hothers : ∀ u ∈ l, u ≠ e → ¬(s.start < u.endTime ∧ s.endTime > u.start)) :
    s.overlaps e = false ∧ (Schedule.addTimeSlot l s now).1 = true := by
  have hne : ¬(s.start < e.endTime ∧ s.endTime > e.start) := by
    rcases hadj with h | h <;> omega
  refine ⟨(overlaps_eq_false_iff s e).mpr hne, ?_⟩
  have hov : Schedule.overlapsAny l s = false := by
    simp only [Schedule.overlapsAny, List.any_eq_false]
    intro u hu
    by_cases hue : u = e
    · subst hue
      simpa using hne
    · simpa using hothers u hu hue
  simp [Schedule.addTimeSlot, if_neg hnow, hov]

/-- Schedule `{[0,10)}`: the back-to-back candidate `[10,20)` is not
counted as overlapping and is admitted. -/
theorem addTimeSlot_admits_adjacent_witness :
    TimeSlot.overlaps ⟨10, 20, 1⟩ ⟨0, 10, 0⟩ = false ∧
    (Schedule.addTimeSlot [⟨0, 10, 0⟩] ⟨10, 20, 1⟩ 0).1 = true :=
  addTimeSlot_admits_adjacent [⟨0, 10, 0⟩] ⟨0, 10, 0⟩ ⟨10, 20, 1⟩ 0
    (by decide) (by decide) (by decide) (by decide)

/- ### C2 -/

/-- C2: for a well-formed slot, `addTimeSlot` returns `false` and leaves the
sequence unchanged when the slot ended strictly before the sampled instant
or overlaps an existing slot under the strict test
`s.start < existing.end && s.end > existing.start`; otherwise it returns
`true` and the result is the old sequence with `s` spliced in immediately
before the first slot with strictly greater `start` (appended at the end
when none exists), in which `s` occurs exactly once. -/
theorem addTimeSlot_spec (l : List TimeSlot) (s : TimeSlot) (now : Int)
    (hs : s.start < s.endTime) :
    ((s.endTime < now ∨ ∃ u ∈ l, s.start < u.endTime ∧ s.endTime > u.start) →
      Schedule.addTimeSlot l s now = (false, l)) ∧
    (¬ s.endTime < now →
      (∀ u ∈ l, ¬(s.start < u.endTime ∧ s.endTime > u.start)) →
      Schedule.addTimeSlot l s now =
        (true,
          l.takeWhile (fun u => !(s.lessThan u)) ++
            s :: l.dropWhile (fun u => !(s.lessThan u))) ∧
      (l.takeWhile (fun u => !(s.lessThan u)) ++
          s :: l.dropWhile (fun u => !(s.lessThan u))).count s = 1) := by
  constructor
  · rintro (hpast | ⟨u, hu, hov⟩)
    · simp [Schedule.addTimeSlot, if_pos hpast]
    · by_cases hpast : s.endTime < now
      · simp [Schedule.addTimeSlot, if_pos hpast]
      · have hany : Schedule.overlapsAny l s = true := by
          simp only [Schedule.overlapsAny, List.any_eq_true]
          exact ⟨u, hu, by simpa using hov⟩
        simp [Schedule.addTimeSlot, if_neg hpast, hany]
  · intro hpast hov
    have hany : Schedule.overlapsAny l s = false := (overlapsAny_eq_false_iff l s).mpr hov
    have hmem : s ∉ l := fun hm => (hov s hm) ⟨hs, hs⟩
    refine ⟨?_, ?_⟩
    · simp [Schedule.addTimeSlot, if_neg hpast, hany, insertLoop_eq_takeWhile_dropWhile]
    · have h1 : s ∉ l.takeWhile (fun u => !(s.lessThan u)) :=
        fun hm => hmem ((List.takeWhile_prefix _).subset hm)
      have h2 : s ∉ l.dropWhile (fun u => !(s.lessThan u)) :=
        fun hm => hmem ((List.dropWhile_suffix _).subset hm)
      simp [List.count_append, List.count_cons_self,
        List.count_eq_zero.mpr h1, List.count_eq_zero.mpr h2]

/-- Adding `[20,30)` to the schedule `{[0,10)}` at `now = 0` succeeds,
splices it after `[0,10)`, and it occurs exactly once. -/
theorem addTimeSlot_spec_witness :
    Schedule.addTimeSlot [TimeSlot.mk 0 10 0] (TimeSlot.mk 20 30 1) 0 =
      (true,
        [TimeSlot.mk 0 10 0].takeWhile
            (fun u => !((TimeSlot.mk 20 30 1).lessThan u)) ++
          TimeSlot.mk 20 30 1 ::
            [TimeSlot.mk 0 10 0].dropWhile
              (fun u => !((TimeSlot.mk 20 30 1).lessThan u))) ∧
    ([TimeSlot.mk 0 10 0].takeWhile
          (fun u => !((TimeSlot.mk 20 30 1).lessThan u)) ++
        TimeSlot.mk 20 30 1 ::
          [TimeSlot.mk 0 10 0].dropWhile
            (fun u => !((TimeSlot.mk 20 30 1).lessThan u))).count
      (TimeSlot.mk 20 30 1) = 1 :=
  (addTimeSlot_spec [TimeSlot.mk 0 10 0] (TimeSlot.mk 20 30 1) 0
    (by decide)).2 (by decide) (by decide)

/- ### C4 -/

/-- C4: whenever `addTimeSlot(s)` succeeds, immediately calling
`removeTimeSlot(s)` with that same slot succeeds and restores the
`timeSlots` sequence to its state before the addition. -/
theorem addTimeSlot_removeTimeSlot_roundtrip (l : List TimeSlot)
    (s : TimeSlot) (now : Int) (hs : s.start < s.endTime)
    (h : (Schedule.addTimeSlot l s now).1 = true) :
    Schedule.removeTimeSlot (Schedule.addTimeSlot l s now).2 s = (true, l) := by
  by_cases hpast : s.endTime < now
  · simp [Schedule.addTimeSlot, if_pos hpast] at h
  · by_cases hany : Schedule.overlapsAny l s
    · simp [Schedule.addTimeSlot, if_neg hpast, hany] at h
    · have h2 : (Schedule.addTimeSlot l s now).2 = Schedule.insertLoop l s := by
        simp [Schedule.addTimeSlot, if_neg hpast, hany]
      have hov := (overlapsAny_eq_false_iff l s).mp (by simpa using hany)
      have hmem : s ∉ l := fun hm => (hov s hm) ⟨hs, hs⟩
      obtain ⟨j, hj1, hj2⟩ := findIdx?_insertLoop l s hmem
      rw [h2]
      simp [Schedule.removeTimeSlot, hj1, hj2]

/-- Adding `[0,10)` to the schedule `{[20,30)}` succeeds and removing the
same slot restores `{[20,30)}` exactly. -/
theorem addTimeSlot_removeTimeSlot_roundtrip_witness :
    Schedule.removeTimeSlot
        (Schedule.addTimeSlot [TimeSlot.mk 20 30 5] (TimeSlot.mk 0 10 9) 0).2
        (TimeSlot.mk 0 10 9) =
      (true, [TimeSlot.mk 20 30 5]) :=
  addTimeSlot_removeTimeSlot_roundtrip [TimeSlot.mk 20 30 5]
    (TimeSlot.mk 0 10 9) 0 (by decide) (by decide)

/- ### C5 -/

lemma getLast?_elim_irrel (w : TimeSlot) (l : List TimeSlot) (d1 d2 : Int) :
    ((w :: l).getLast?).elim d1 TimeSlot.endTime =
      ((w :: l).getLast?).elim d2 TimeSlot.endTime := by
  induction l generalizing w with
  | nil => rfl
  | cons a l ih =>
    rw [List.getLast?_cons_cons]
    exact ih a

lemma nextFreeLoop_first_gap (now : Int) (fresh : Nat) (post : List TimeSlot)
    (t : TimeSlot) (ht : t.start > now) :
    ∀ (pre : List TimeSlot) (prev : Option TimeSlot),
      (∀ u ∈ pre, ¬ u.start > now) →
      Schedule.nextFreeLoop now fresh prev (pre ++ t :: post) =
        (mkTimeSlot
          (some ((pre.getLast?).elim (prev.elim now TimeSlot.endTime) TimeSlot.endTime))
          (some t.start) fresh).map some := by
  intro pre
  induction pre with
  | nil =>
    intro prev _
    cases prev with
    | none => simp [Schedule.nextFreeLoop, if_pos ht]
    | some p => simp [Schedule.nextFreeLoop, if_pos ht]
  | cons u pre' ih =>
    intro prev hpre
    have hu : ¬ u.start > now := hpre u (List.mem_cons_self u pre')
    simp only [List.cons_append, Schedule.nextFreeLoop, if_neg hu, List.append_eq]
    rw [ih (some u) (fun v hv => hpre v (List.mem_cons_of_mem u hv))]
    cases pre' with
    | nil => rfl
    | cons w pre'' =>
      rw [List.getLast?_cons_cons]
      exact congrArg
        (fun x => Except.map some (mkTimeSlot (some x) (some t.start) fresh))
        (getLast?_elim_irrel w pre'' _ _)

/-- C5: when some stored slot starts strictly after the sampled instant,
`nextFreeTimeSlot` takes the first such slot `t` (everything before it
starts at or before `now`) and returns exactly the result of constructing
a fresh `TimeSlot` from the previous slot's `end` — or from `now` when `t`
is first — up to `t.start`; since the result is the constructor's
`Except` mapped into the return value, a construction failure (zero-length
or over-24h gap) propagates to the caller unsuppressed. -/
theorem nextFreeTimeSlot_first_gap (pre post : List TimeSlot) (t : TimeSlot)
    (now : Int) (fresh : Nat)
    (hpre : ∀ u ∈ pre, ¬ u.start > now) (ht : t.start > now) :
    (Schedule.nextFreeTimeSlot (pre ++ t :: post) now fresh).1 =
      (mkTimeSlot (some ((pre.getLast?).elim now TimeSlot.endTime))
        (some t.start) fresh).map some :=
  nextFreeLoop_first_gap now fresh post t ht pre none hpre

/-- Schedule `{[0,10), [10,20)}` at `now = 5`: the first future slot starts
at `10`, the previous slot ends at `10`, so the synthetic slot is
zero-length and the constructor's `OrderingError` propagates out of
`nextFreeTimeSlot`. -/
theorem nextFreeTimeSlot_first_gap_witness :
    (Schedule.nextFreeTimeSlot [⟨0, 10, 0⟩, ⟨10, 20, 1⟩] 5 7).1 =
      (mkTimeSlot (some (([(⟨0, 10, 0⟩ : TimeSlot)].getLast?).elim 5 TimeSlot.endTime))
        (some (TimeSlot.mk 10 20 1).start) 7).map some ∧
    (Schedule.nextFreeTimeSlot [⟨0, 10, 0⟩, ⟨10, 20, 1⟩] 5 7).1 =
      .error .ordering :=
  ⟨nextFreeTimeSlot_first_gap [⟨0, 10, 0⟩] [] ⟨10, 20, 1⟩ 5 7
    (by decide) (by decide), rfl⟩

/- ### C8 -/

/-- C8: on a schedule ascending by `start`, `nextBusyTimeSlot` returns the
first slot starting strictly after the sampled instant, which is also the
earliest such slot; it returns none exactly when no slot starts strictly
after that instant. -/
theorem nextBusyTimeSlot_spec (l : List TimeSlot) (now : Int)
    (hsorted : l.Pairwise (fun a b => a.start < b.start)) :
    (∀ t, (Schedule.nextBusyTimeSlot l now).1 = some t →
      t ∈ l ∧ t.start > now ∧ ∀ u ∈ l, u.start > now → t.start ≤ u.start) ∧
    ((Schedule.nextBusyTimeSlot l now).1 = none ↔ ∀ u ∈ l, ¬ u.start > now) := by
  induction l with
  | nil =>
    exact ⟨fun t h => by simp [Schedule.nextBusyTimeSlot] at h,
      by simp [Schedule.nextBusyTimeSlot]⟩
  | cons a l ih =>
    rcases List.pairwise_cons.mp hsorted with ⟨ha, hl⟩
    obtain ⟨ih1, ih2⟩ := ih hl
    by_cases hanow : a.start > now
    · have hfind : (Schedule.nextBusyTimeSlot (a :: l) now).1 = some a := by
        simp [Schedule.nextBusyTimeSlot, List.find?_cons_of_pos, hanow]
      constructor
      · intro t h
        rw [hfind] at h
        obtain rfl : a = t := by injection h
        refine ⟨List.mem_cons_self a l, hanow, ?_⟩
        intro u hu _
        rcases List.mem_cons.mp hu with rfl | hu'
        · exact le_refl _
        · exact le_of_lt (ha u hu')
      · rw [hfind]
        constructor
        · intro h
          exact absurd h (by simp)
        · intro h
          exact absurd hanow (h a (List.mem_cons_self a l))
    · have hfind : (Schedule.nextBusyTimeSlot (a :: l) now).1 =
          (Schedule.nextBusyTimeSlot l now).1 := by
        simp only [Schedule.nextBusyTimeSlot]
        exact List.find?_cons_of_neg l (by simpa using hanow)
      constructor
      · intro t h
        rw [hfind] at h
        obtain ⟨hmem, hgt, hmin⟩ := ih1 t h
        refine ⟨List.mem_cons_of_mem a hmem, hgt, ?_⟩
        intro u hu hun
        rcases List.mem_cons.mp hu with rfl | hu'
        · exact absurd hun hanow
        · exact hmin u hu' hun
      · rw [hfind, ih2]
        constructor
        · intro h u hu
          rcases List.mem_cons.mp hu with rfl | hu'
          · exact hanow
          · exact h u hu'
        · intro h u hu
          exact h u (List.mem_cons_of_mem a hu)

/-- Schedule `{[0,10), [20,30)}` at `now = 5`: the returned slot `[20,30)`
is in the schedule, starts after `now`, and no slot starting after `now`
starts earlier. -/
theorem nextBusyTimeSlot_spec_witness :
    (TimeSlot.mk 20 30 1) ∈ [TimeSlot.mk 0 10 0, TimeSlot.mk 20 30 1] ∧
    (TimeSlot.mk 20 30 1).start > 5 ∧
    ∀ u ∈ [TimeSlot.mk 0 10 0, TimeSlot.mk 20 30 1],
      u.start > 5 → (TimeSlot.mk 20 30 1).start ≤ u.start :=
  (nextBusyTimeSlot_spec [TimeSlot.mk 0 10 0, TimeSlot.mk 20 30 1] 5
    (by simp)).1 (TimeSlot.mk 20 30 1) (by decide)

/- ### C3 -/

/-- The inductive invariant: every stored slot is constructor-validated,
and the sequence is sorted and non-overlapping. -/
def Inv (l : List TimeSlot) : Prop :=
  (∀ t ∈ l, WF t) ∧ SortedNonOverlapping l

lemma mem_insertLoop {v : TimeSlot} (l : List TimeSlot) (s : TimeSlot) :
    v ∈ Schedule.insertLoop l s ↔ v = s ∨ v ∈ l := by
  induction l with
  | nil => simp [Schedule.insertLoop]
  | cons u rest ih =>
    by_cases h : s.lessThan u
    · simp [Schedule.insertLoop, if_pos h]
    · simp only [Schedule.insertLoop, if_neg h, List.mem_cons, ih]
      tauto

lemma insertLoop_inv (s : TimeSlot) (hs : WF s) :
    ∀ l : List TimeSlot,
      (∀ u ∈ l, ¬(s.start < u.endTime ∧ s.endTime > u.start)) → Inv l →
      Inv (Schedule.insertLoop l s) := by
  intro l
  induction l with
  | nil =>
    intro _ _
    refine ⟨?_, List.pairwise_singleton _ _, List.pairwise_singleton _ _⟩
    intro t ht
    rw [List.mem_singleton.mp ht]
    exact hs
  | cons u rest ih =>
    intro hov hinv
    obtain ⟨hwf, hsort, hnov⟩ := hinv
    obtain ⟨hu_lt, hsort'⟩ := List.pairwise_cons.mp hsort
    obtain ⟨hu_nov, hnov'⟩ := List.pairwise_cons.mp hnov
    have hwf_u : u.start < u.endTime := hwf u (List.mem_cons_self u rest)
    have hwf' : ∀ t ∈ rest, WF t := fun t ht => hwf t (List.mem_cons_of_mem u ht)
    have hov_u := hov u (List.mem_cons_self u rest)
    have hov' : ∀ v ∈ rest, ¬(s.start < v.endTime ∧ s.endTime > v.start) :=
      fun v hv => hov v (List.mem_cons_of_mem u hv)
    have hs' : s.start < s.endTime := hs
    by_cases h : s.lessThan u
    · have hsu : s.start < u.start := by simpa [TimeSlot.lessThan] using h
      refine ⟨?_, ?_, ?_⟩
      · intro t ht
        simp only [Schedule.insertLoop, if_pos h, List.mem_cons] at ht
        rcases ht with rfl | rfl | ht'
        · exact hs
        · exact hwf_u
        · exact hwf' t ht'
      · simp only [Schedule.insertLoop, if_pos h]
        refine List.pairwise_cons.mpr ⟨?_, hsort⟩
        intro v hv
        rcases List.mem_cons.mp hv with rfl | hv'
        · exact hsu
        · exact hsu.trans (hu_lt v hv')
      · simp only [Schedule.insertLoop, if_pos h]
        refine List.pairwise_cons.mpr ⟨?_, hnov⟩
        intro v hv
        exact (overlaps_eq_false_iff s v).mpr (hov v hv)
    · have hus : u.start ≤ s.start := by simpa [TimeSlot.lessThan, not_lt] using h
      have hkey : u.endTime ≤ s.start := by
        have h1 : s.endTime > u.start := lt_of_le_of_lt hus hs'
        omega
      have hfin : u.start < s.start := lt_of_lt_of_le hwf_u hkey
      have hrec := ih hov' ⟨hwf', hsort', hnov'⟩
      refine ⟨?_, ?_, ?_⟩
      · intro t ht
        simp only [Schedule.insertLoop, if_neg h, List.mem_cons] at ht
        rcases ht with rfl | ht'
        · exact hwf_u
        · rcases (mem_insertLoop rest s).mp ht' with rfl | h''
          · exact hs
          · exact hwf' t h''
      · simp only [Schedule.insertLoop, if_neg h]
        refine List.pairwise_cons.mpr ⟨?_, hrec.2.1⟩
        intro v hv
        rcases (mem_insertLoop rest s).mp hv with rfl | hv'
        · exact hfin
        · exact hu_lt v hv'
      · simp only [Schedule.insertLoop, if_neg h]
        refine List.pairwise_cons.mpr ⟨?_, hrec.2.2⟩
        intro v hv
        rcases (mem_insertLoop rest s).mp hv with rfl | hv'
        · exact (overlaps_eq_false_iff u _).mpr (by omega)
        · exact hu_nov v hv'

lemma addTimeSlot_inv (l : List TimeSlot) (s : TimeSlot) (now : Int)
    (hs : WF s) (hinv : Inv l) : Inv (Schedule.addTimeSlot l s now).2 := by
  by_cases hpast : s.endTime < now
  · simpa [Schedule.addTimeSlot, if_pos hpast] using hinv
  · by_cases hany : Schedule.overlapsAny l s
    · simpa [Schedule.addTimeSlot, if_neg hpast, hany] using hinv
    · have hov := (overlapsAny_eq_false_iff l s).mp (by simpa using hany)
      simpa [Schedule.addTimeSlot, if_neg hpast, hany] using
        insertLoop_inv s hs l hov hinv

lemma removeTimeSlot_sublist (l : List TimeSlot) (t : TimeSlot) :
    (Schedule.removeTimeSlot l t).2.Sublist l := by
  rcases h : l.findIdx? (fun slot => slot == t) with _ | i
  · simp [Schedule.removeTimeSlot, h]
  · simpa [Schedule.removeTimeSlot, h] using List.eraseIdx_sublist l i

lemma removeTimeSlot_inv (l : List TimeSlot) (t : TimeSlot) (hinv : Inv l) :
    Inv (Schedule.removeTimeSlot l t).2 :=
  ⟨fun x hx => hinv.1 x ((removeTimeSlot_sublist l t).subset hx),
    hinv.2.1.sublist (removeTimeSlot_sublist l t),
    hinv.2.2.sublist (removeTimeSlot_sublist l t)⟩

lemma foldl_applyOp_inv (ops : List Op) :
    ∀ l : List TimeSlot, (∀ op ∈ ops, OpWF op) → Inv l →
      Inv (ops.foldl applyOp l) := by
  induction ops with
  | nil =>
    intro l _ hinv
    simpa using hinv
  | cons op ops ih =>
    intro l hops hinv
    simp only [List.foldl_cons]
    refine ih _ (fun o ho => hops o (List.mem_cons_of_mem op ho)) ?_
    cases op with
    | add s now => exact addTimeSlot_inv l s now (hops _ (List.mem_cons_self _ _)) hinv
    | remove s => exact removeTimeSlot_inv l s hinv

/-- C3: starting from the empty schedule, after every prefix of any
sequence of `addTimeSlot` and `removeTimeSlot` calls (each slot being
constructor-validated) the `timeSlots` sequence is strictly ascending by
`start` and no two elements overlap. -/
theorem schedule_invariant_ops (ops : List Op)
    (hops : ∀ op ∈ ops, OpWF op) (n : Nat) :
    SortedNonOverlapping (runOps (ops.take n)) :=
  (foldl_applyOp_inv (ops.take n) []
    (fun op ho => hops op (List.mem_of_mem_take ho))
    ⟨fun t ht => absurd ht (List.not_mem_nil t),
      List.Pairwise.nil, List.Pairwise.nil⟩).2

/-- The sequence add `[10,20)`, add `[0,5)`, remove `[10,20)` keeps the
schedule sorted and non-overlapping at every step (here after all three
operations). -/
theorem schedule_invariant_ops_witness :
    SortedNonOverlapping (runOps
      ([Op.add (TimeSlot.mk 10 20 1) 0, Op.add (TimeSlot.mk 0 5 2) 0,
        Op.remove (TimeSlot.mk 10 20 1)].take 3)) :=
  schedule_invariant_ops
    [Op.add (TimeSlot.mk 10 20 1) 0, Op.add (TimeSlot.mk 0 5 2) 0,
      Op.remove (TimeSlot.mk 10 20 1)]
    (by simp [List.forall_mem_cons, OpWF, WF]) 3

/- ### C10 -/

/-- C10: the four query operations return the `timeSlots` sequence exactly
as they found it; in particular the synthetic slot built by
`nextFreeTimeSlot` is only returned, never inserted. -/
theorem queries_leave_schedule_unchanged (l : List TimeSlot) (s : TimeSlot)
    (now : Int) (fresh : Nat) :
    (Schedule.isFree l s).2 = l ∧
    (Schedule.isBusy l now).2 = l ∧
    (Schedule.nextBusyTimeSlot l now).2 = l ∧
    (Schedule.nextFreeTimeSlot l now fresh).2 = l :=
  ⟨rfl, rfl, rfl, rfl⟩

end LaundryQueue
